import Mathlib

/-!
Shallow embedding of the fsmtui editor (src/main.rs and src/vector2d.rs).

Identity of an `Rc<RefCell<FSMState>>` allocation is modelled by a `Nat` id
that is never reused (`App.nextId` stays above every id ever allocated); a
`Weak` reference is an optional id, and upgrading succeeds exactly when a node
with that id is in `App.states`, which is the only strong owner of nodes.
`f64` coordinates are modelled by `ℚ` in the editor (the position arithmetic
there is exact) and by `ℝ` in the vector geometry.
-/

/-- Key codes the editor reacts to; `other` stands for any further key
(function keys, etc.), which both input modes ignore. -/
inductive KeyCode where
  | char : Char → KeyCode
  | backspace : KeyCode
  | enter : KeyCode
  | esc : KeyCode
  | tab : KeyCode
  | left : KeyCode
  | right : KeyCode
  | up : KeyCode
  | down : KeyCode
  | other : KeyCode
deriving DecidableEq

/-- The canvas marker styles cycled by the `m` key. -/
inductive Marker where
  | dot | block | bar | braille | halfBlock
deriving DecidableEq

/-- Embeds `FSMState` (src/main.rs): position, name, outgoing weak references.
`id` models the identity of the `Rc` allocation; `next_states` holds the ids
the outgoing weak references point at (they may be dangling).  The name is
the character sequence of the Rust `String`. -/
structure FSMState where
  id : Nat
  x : ℚ
  y : ℚ
  name : List Char
  next_states : List Nat
deriving DecidableEq

/-- Embeds `FSMState::circle_radius`. -/
def FSMState.circle_radius (s : FSMState) : ℚ :=
  max ((s.name.length * 2 : ℚ) + 5) 10

/-- Embeds the mutable state of `App`. -/
structure App where
  states : List FSMState
  selected_state : Option Nat
  secondary_selected_state : Option Nat
  new_state_name : Option (List Char)
  marker : Marker
  nextId : Nat
deriving DecidableEq

/-- Embeds `App::new`. -/
def App.new : App :=
  { states := [], selected_state := none, secondary_selected_state := none,
    new_state_name := none, marker := .braille, nextId := 0 }

/-- Upgrade of a weak reference to the node with id `i`: succeeds iff a node
with that id is live, i.e. currently in `states` (the only strong owner). -/
def App.findNode (app : App) (i : Nat) : Option FSMState :=
  app.states.find? (fun n => n.id == i)

/-- Upgrade of a selection slot. -/
def App.upgrade (app : App) (w : Option Nat) : Option FSMState :=
  w.bind app.findNode

/-- The ids of the live nodes, in iteration order. -/
def App.ids (app : App) : List Nat :=
  app.states.map (·.id)

/-- In-place mutation, through the `RefCell`, of the node with id `i`. -/
def App.updateNode (app : App) (i : Nat) (f : FSMState → FSMState) : App :=
  { app with states := app.states.map (fun n => if n.id == i then f n else n) }

/-- The predicate of the `retain` call in the `c` handler: keep an outgoing
reference unless it upgrades to the primary-selected node (identity test via
`Rc::ptr_eq`). -/
def retainKeep (app : App) (selected : FSMState) (s : Nat) : Bool :=
  match app.findNode s with
  | some s2 => s2.id != selected.id
  | none => true

/-- The outgoing list of the secondary node after the `c` (toggle-connect)
handler: retain all references not upgrading to the primary node, and if that
removed nothing, push a reference to the primary node. -/
def newNext (app : App) (sel sec : FSMState) : List Nat :=
  let retained := sec.next_states.filter (retainKeep app sel)
  if sec.next_states.length = retained.length then retained ++ [sel.id] else retained

/-- Embeds the `c` (toggle-connect) handler of `App::run`. -/
def toggleConnect (app : App) : App :=
  match app.upgrade app.selected_state, app.upgrade app.secondary_selected_state with
  | some selected_state, some secondary_state =>
    let old_secondary_next_count := secondary_state.next_states.length
    let retained := secondary_state.next_states.filter (retainKeep app selected_state)
    let new_next :=
      if old_secondary_next_count = retained.length then retained ++ [selected_state.id]
      else retained
    let app := app.updateNode secondary_state.id (fun n => { n with next_states := new_next })
    { app with selected_state := none, secondary_selected_state := none }
  | _, _ => app

/-- Embeds `Vec::swap_remove`: overwrite index `i` with the last element and
pop the last element. -/
def swapRemove (l : List FSMState) (i : Nat) : List FSMState :=
  match l.getLast? with
  | none => l
  | some last => (l.set i last).dropLast

/-- Embeds the `d` (delete) handler of `App::run`.  The source unwraps the
position lookup; the `none` fallback models the (unreachable) panic of that
unwrap as the identity. -/
def deleteSelected (app : App) : App :=
  match app.upgrade app.selected_state with
  | some state =>
    match app.states.findIdx? (fun s => s.id == state.id) with
    | some index => { app with states := swapRemove app.states index }
    | none => app
  | none => app

/-- Embeds the `Tab` handler of `App::run`: advance the primary selection in
iteration order, wrapping via `states.first()`. -/
def tabStep (app : App) : App :=
  match app.upgrade app.selected_state with
  | some state =>
    match (app.states.dropWhile (fun s => s.id != state.id))[1]? with
    | some n => { app with selected_state := some n.id }
    | none =>
      match app.states.head? with
      | some n => { app with selected_state := some n.id }
      | none => app
  | none =>
    match app.states.head? with
    | some n => { app with selected_state := some n.id }
    | none => app

/-- Embeds the arrow-key handlers: move the primary-selected node. -/
def moveSelected (app : App) (dx dy : ℚ) : App :=
  match app.upgrade app.selected_state with
  | some state =>
    app.updateNode state.id (fun n => { n with x := n.x + dx, y := n.y + dy })
  | none => app

/-- The fixed marker order of the `m` handler. -/
def markerOrder : List Marker := [.dot, .block, .bar, .braille, .halfBlock]

/-- Embeds the `m` handler: skip to the current marker, take the next one,
falling back to the first. -/
def nextMarker (m : Marker) : Marker :=
  ((markerOrder.dropWhile (fun x => x != m))[1]?).getD .dot

/-- One dispatch of a key press in `App::run`.  `q` ends the run loop without
touching the state, so it is modelled as the identity. -/
def step (app : App) (key : KeyCode) : App :=
  match app.new_state_name with
  | some buf =>
    match key with
    | .char c => { app with new_state_name := some (buf ++ [c]) }
    | .backspace =>
      { app with new_state_name := some (if buf.isEmpty then buf else buf.dropLast) }
    | .enter =>
      let state : FSMState :=
        { id := app.nextId, x := 200, y := 200, name := buf, next_states := [] }
      { app with new_state_name := none, selected_state := some state.id,
                 states := app.states ++ [state], nextId := app.nextId + 1 }
    | .esc => { app with new_state_name := none }
    | _ => app
  | none =>
    match key with
    | .char 'q' => app
    | .char 's' =>
      { app with secondary_selected_state := app.selected_state, selected_state := none }
    | .char 'c' => toggleConnect app
    | .char 'd' => deleteSelected app
    | .char 'n' => { app with new_state_name := some [] }
    | .char 'm' => { app with marker := nextMarker app.marker }
    | .tab => tabStep app
    | .esc => { app with selected_state := none, secondary_selected_state := none }
    | .left => moveSelected app (-5) 0
    | .right => moveSelected app 5 0
    | .up => moveSelected app 0 5
    | .down => moveSelected app 0 (-5)
    | _ => app

/-- The editor states reachable from startup by key presses. -/
inductive Reachable : App → Prop where
  | init : Reachable App.new
  | next : ∀ {a : App} (k : KeyCode), Reachable a → Reachable (step a k)

/-- Well-formedness of an editor state: ids are distinct, every id ever used
(live or dangling) is below `nextId`, and no node has two outgoing references
to the same live target. -/
abbrev WF (app : App) : Prop :=
  app.ids.Nodup ∧
  (∀ n ∈ app.states, n.id < app.nextId) ∧
  (∀ n ∈ app.states, ∀ t ∈ n.next_states, t < app.nextId) ∧
  (∀ n ∈ app.states, (n.next_states.filter (fun t => decide (t ∈ app.ids))).Nodup)

/-- A concrete editor state with two nodes, node 1 primary-selected and
node 0 secondary-selected (as after: n, A, Enter, s, n, B, Enter). -/
def appW2 : App :=
  { states :=
      [{ id := 0, x := 200, y := 200, name := ['A'], next_states := [] },
       { id := 1, x := 200, y := 200, name := ['B'], next_states := [] }],
    selected_state := some 1, secondary_selected_state := some 0,
    new_state_name := none, marker := .braille, nextId := 2 }

/-- The editor state after pressing n, typing Idle, and pressing Backspace
twice, starting from a fresh editor. -/
def appId : App :=
  step (step (step (step (step (step (step App.new (.char 'n'))
    (.char 'I')) (.char 'd')) (.char 'l')) (.char 'e')) .backspace) .backspace

/-- The editor state after pressing n, typing I, and pressing Enter,
starting from a fresh editor: one node, primary-selected. -/
def appR : App :=
  step (step (step App.new (.char 'n')) (.char 'I')) .enter

/-- The single node of `appR`. -/
def nodeI : FSMState :=
  { id := 0, x := 200, y := 200, name := ['I'], next_states := [] }

/-- A free-standing node named A, used to instantiate the radius claim. -/
def nodeA : FSMState :=
  { id := 0, x := 0, y := 0, name := ['A'], next_states := [] }

/-- A free-standing node named Idle, used to instantiate the radius claim. -/
def nodeIdle : FSMState :=
  { id := 0, x := 0, y := 0, name := ['I', 'd', 'l', 'e'], next_states := [] }

noncomputable section

/-- Embeds `Vector2D` from src/vector2d.rs; `f64` is modelled by `ℝ`. -/
@[ext]
structure Vector2D where
  x : ℝ
  y : ℝ

instance : Add Vector2D := ⟨fun a b => ⟨a.x + b.x, a.y + b.y⟩⟩

instance : Sub Vector2D := ⟨fun a b => ⟨a.x - b.x, a.y - b.y⟩⟩

instance : HMul Vector2D ℝ Vector2D := ⟨fun a c => ⟨a.x * c, a.y * c⟩⟩

instance : HDiv Vector2D ℝ Vector2D := ⟨fun a c => ⟨a.x / c, a.y / c⟩⟩

/-- Rust `f64` truncation toward zero, as used by the `%` operator. -/
def truncTowardZero (q : ℝ) : ℤ := if 0 ≤ q then ⌊q⌋ else ⌈q⌉

/-- Rust `a % b` on `f64`: remainder with the sign of the dividend. -/
def rustRem (a b : ℝ) : ℝ := a - b * truncTowardZero (a / b)

/-- `std::f64::consts::TAU`. -/
def tau : ℝ := 2 * Real.pi

/-- The angle reduction at the top of `Vector2D::rotate`: `angle % TAU`,
shifted into `[0, TAU)` when negative. -/
def reduceAngle (angle : ℝ) : ℝ :=
  let a := rustRem angle tau
  if a < 0 then a + tau else a

/-- Embeds `Vector2D::rotate`. -/
def Vector2D.rotate (v : Vector2D) (angle : ℝ) : Vector2D :=
  ⟨Real.cos (reduceAngle angle) * v.x - Real.sin (reduceAngle angle) * v.y,
   Real.sin (reduceAngle angle) * v.x + Real.cos (reduceAngle angle) * v.y⟩

/-- Embeds `Vector2D::magnitude` (`hypot`). -/
def Vector2D.magnitude (v : Vector2D) : ℝ := Real.sqrt (v.x ^ 2 + v.y ^ 2)

/-- Embeds `Vector2D::normalized`. -/
def Vector2D.normalized (v : Vector2D) : Vector2D :=
  if v.magnitude = 0 then v else v / v.magnitude

/-- Standard 2D rotation by the raw angle, following the spec wording
("equivalent to a standard 2D rotation for any real angle"), for comparison
with the source's `rotate`. -/
def rotateStdSpec (v : Vector2D) (angle : ℝ) : Vector2D :=
  ⟨Real.cos angle * v.x - Real.sin angle * v.y,
   Real.sin angle * v.x + Real.cos angle * v.y⟩

/-- The edge geometry computed by `FSMState::draw` for one live outgoing edge:
(shaft start, shaft end, first wing point, second wing point). -/
def edgeGeometry (source target : FSMState) : Vector2D × Vector2D × Vector2D × Vector2D :=
  let v1 : Vector2D := ⟨(source.x : ℝ), (source.y : ℝ)⟩
  let v2 : Vector2D := ⟨(target.x : ℝ), (target.y : ℝ)⟩
  let v_arrow := (v2 - v1).normalized * (1.5 : ℝ)
  let p1 := v1 + v_arrow * (source.circle_radius : ℝ)
  let p2 := v2 - v_arrow * (target.circle_radius : ℝ)
  let w1 := (p1 - p2).normalized.rotate (Real.pi / 4) * (10 : ℝ) + p2
  let w2 := (p1 - p2).normalized.rotate (-(Real.pi / 4)) * (10 : ℝ) + p2
  (p1, p2, w1, w2)

/-- The same edge geometry following the wording of spec §4.2, with the
standard rotation for the two ±45° wing rotations. -/
def edgeGeometrySpec (source target : FSMState) : Vector2D × Vector2D × Vector2D × Vector2D :=
  let direction :=
    (Vector2D.mk (target.x : ℝ) (target.y : ℝ) -
      Vector2D.mk (source.x : ℝ) (source.y : ℝ)).normalized * (1.5 : ℝ)
  let shaftStart :=
    Vector2D.mk (source.x : ℝ) (source.y : ℝ) + direction * (source.circle_radius : ℝ)
  let shaftEnd :=
    Vector2D.mk (target.x : ℝ) (target.y : ℝ) - direction * (target.circle_radius : ℝ)
  let wing1 := rotateStdSpec (shaftStart - shaftEnd).normalized (Real.pi / 4) * (10 : ℝ) + shaftEnd
  let wing2 :=
    rotateStdSpec (shaftStart - shaftEnd).normalized (-(Real.pi / 4)) * (10 : ℝ) + shaftEnd
  (shaftStart, shaftEnd, wing1, wing2)

end

/-! Lemmas about the vector geometry. -/

theorem reduceAngle_eq (angle : ℝ) : ∃ k : ℤ, reduceAngle angle = angle + k * (2 * Real.pi) := by
  unfold reduceAngle rustRem tau
  by_cases h : angle - 2 * Real.pi * truncTowardZero (angle / (2 * Real.pi)) < 0
  · refine ⟨1 - truncTowardZero (angle / (2 * Real.pi)), ?_⟩
    simp only [h, if_pos]
    push_cast
    ring
  · refine ⟨-truncTowardZero (angle / (2 * Real.pi)), ?_⟩
    simp only [h, if_neg, not_false_iff]
    push_cast
    ring

theorem cos_reduceAngle (angle : ℝ) : Real.cos (reduceAngle angle) = Real.cos angle := by
  obtain ⟨k, hk⟩ := reduceAngle_eq angle
  rw [hk, Real.cos_add_int_mul_two_pi]

theorem sin_reduceAngle (angle : ℝ) : Real.sin (reduceAngle angle) = Real.sin angle := by
  obtain ⟨k, hk⟩ := reduceAngle_eq angle
  rw [hk, Real.sin_add_int_mul_two_pi]

theorem rotate_eq_rotateStdSpec (v : Vector2D) (angle : ℝ) :
    v.rotate angle = rotateStdSpec v angle := by
  unfold Vector2D.rotate rotateStdSpec
  rw [cos_reduceAngle, sin_reduceAngle]

theorem rotateStdSpec_roundtrip (v : Vector2D) (angle : ℝ) :
    rotateStdSpec (rotateStdSpec v angle) (-angle) = v := by
  unfold rotateStdSpec
  ext
  · simp only [Real.sin_neg, Real.cos_neg]
    linear_combination v.x * Real.sin_sq_add_cos_sq angle
  · simp only [Real.sin_neg, Real.cos_neg]
    linear_combination v.y * Real.sin_sq_add_cos_sq angle

theorem magnitude_nonneg (v : Vector2D) : 0 ≤ v.magnitude := Real.sqrt_nonneg _

theorem normalized_zero : Vector2D.normalized ⟨0, 0⟩ = ⟨0, 0⟩ := by
  unfold Vector2D.normalized Vector2D.magnitude
  norm_num

theorem normalized_of_ne (v : Vector2D) (h : v.magnitude ≠ 0) :
    v.normalized = v / v.magnitude := by
  unfold Vector2D.normalized
  rw [if_neg h]

theorem magnitude_normalized (v : Vector2D) (h : v.magnitude ≠ 0) :
    v.normalized.magnitude = 1 := by
  have hpos : 0 < v.magnitude := lt_of_le_of_ne (magnitude_nonneg v) (Ne.symm h)
  have hsq : v.magnitude ^ 2 = v.x ^ 2 + v.y ^ 2 := Real.sq_sqrt (by positivity)
  rw [normalized_of_ne v h]
  show Real.sqrt ((v.x / v.magnitude) ^ 2 + (v.y / v.magnitude) ^ 2) = 1
  have key : (v.x / v.magnitude) ^ 2 + (v.y / v.magnitude) ^ 2 = 1 := by
    field_simp
    linarith [hsq]
  rw [key, Real.sqrt_one]

/-! Helper lemmas about the editor state machine. -/

theorem findNode_some {app : App} {i : Nat} {n : FSMState} (h : app.findNode i = some n) :
    n.id = i ∧ n ∈ app.states := by
  unfold App.findNode at h
  refine ⟨?_, List.mem_of_find?_eq_some h⟩
  have := List.find?_some h
  simpa using this

theorem findNode_eq_none {app : App} {i : Nat} :
    app.findNode i = none ↔ i ∉ app.ids := by
  unfold App.findNode App.ids
  rw [List.find?_eq_none]
  constructor
  · intro h hm
    obtain ⟨n, hn, hid⟩ := List.mem_map.mp hm
    exact h n hn (by simp [hid])
  · intro h n hn hp
    exact h (List.mem_map.mpr ⟨n, hn, by simpa using hp⟩)

theorem mem_ids_iff {app : App} {i : Nat} :
    i ∈ app.ids ↔ ∃ n ∈ app.states, n.id = i := by
  unfold App.ids
  simp [List.mem_map]

theorem id_inj {app : App} (hd : app.ids.Nodup) {a b : FSMState}
    (ha : a ∈ app.states) (hb : b ∈ app.states) (h : a.id = b.id) : a = b :=
  List.inj_on_of_nodup_map hd ha hb h

theorem mem_decomp_ids {app : App} (hd : app.ids.Nodup) {n : FSMState}
    (hn : n ∈ app.states) :
    ∃ F R, app.states = F ++ n :: R ∧
      (∀ x ∈ F, x.id ≠ n.id) ∧ (∀ x ∈ R, x.id ≠ n.id) := by
  obtain ⟨F, R, hFR⟩ := List.append_of_mem hn
  refine ⟨F, R, hFR, ?_, ?_⟩
  · intro x hx hxid
    have : app.ids = F.map (·.id) ++ n.id :: R.map (·.id) := by
      rw [App.ids, hFR]; simp
    rw [this] at hd
    have := (List.nodup_append.mp hd).2.2
    exact this (a := n.id) (by rw [← hxid]; exact List.mem_map.mpr ⟨x, hx, rfl⟩) (by simp)
  · intro x hx hxid
    have : app.ids = F.map (·.id) ++ n.id :: R.map (·.id) := by
      rw [App.ids, hFR]; simp
    rw [this] at hd
    have h2 := (List.nodup_append.mp hd).2.1
    rw [List.nodup_cons] at h2
    exact h2.1 (by rw [← hxid]; exact List.mem_map.mpr ⟨x, hx, rfl⟩)

theorem findNode_of_mem {app : App} (hd : app.ids.Nodup) {n : FSMState}
    (hn : n ∈ app.states) : app.findNode n.id = some n := by
  obtain ⟨F, R, hFR, hF, _⟩ := mem_decomp_ids hd hn
  unfold App.findNode
  rw [hFR, List.find?_append]
  have hFnone : F.find? (fun x => x.id == n.id) = none := by
    rw [List.find?_eq_none]
    intro x hx
    simpa using hF x hx
  rw [hFnone]
  simp

theorem upgrade_some {app : App} {w : Option Nat} {n : FSMState}
    (h : app.upgrade w = some n) : w = some n.id ∧ app.findNode n.id = some n := by
  unfold App.upgrade at h
  match w, h with
  | some i, h =>
    replace h : app.findNode i = some n := h
    have := (findNode_some h).1
    subst this
    exact ⟨rfl, h⟩

theorem toggleConnect_eq {app : App} {sel sec : FSMState}
    (h1 : app.upgrade app.selected_state = some sel)
    (h2 : app.upgrade app.secondary_selected_state = some sec) :
    toggleConnect app =
      { app.updateNode sec.id (fun n => { n with next_states := newNext app sel sec }) with
        selected_state := none, secondary_selected_state := none } := by
  unfold toggleConnect newNext
  rw [h1, h2]

theorem retainKeep_eq {app : App} {sel : FSMState} (h : sel.id ∈ app.ids) (s : Nat) :
    retainKeep app sel s = (s != sel.id) := by
  unfold retainKeep
  cases hfn : app.findNode s with
  | none =>
    have hs : s ∉ app.ids := findNode_eq_none.mp hfn
    have : s ≠ sel.id := fun he => hs (he ▸ h)
    simp [this]
  | some s2 =>
    have h2 := (findNode_some hfn).1
    simp only []
    rw [h2]

theorem filter_retain_eq {app : App} {sel : FSMState} (h : sel.id ∈ app.ids)
    (l : List Nat) :
    l.filter (retainKeep app sel) = l.filter (fun s => s != sel.id) :=
  List.filter_congr (fun x _ => retainKeep_eq h x)

theorem newNext_of_mem {app : App} {sel sec : FSMState} (h : sel.id ∈ app.ids)
    (hm : sel.id ∈ sec.next_states) :
    newNext app sel sec = sec.next_states.filter (fun s => s != sel.id) := by
  unfold newNext
  rw [filter_retain_eq h]
  rw [if_neg]
  intro hlen
  have := List.filter_length_eq_length.mp hlen.symm sel.id hm
  simp at this

theorem newNext_of_not_mem {app : App} {sel sec : FSMState} (h : sel.id ∈ app.ids)
    (hm : sel.id ∉ sec.next_states) :
    newNext app sel sec = sec.next_states ++ [sel.id] := by
  unfold newNext
  rw [filter_retain_eq h]
  have hself : sec.next_states.filter (fun s => s != sel.id) = sec.next_states := by
    rw [List.filter_eq_self]
    intro a ha
    simp only [bne_iff_ne, ne_eq, decide_eq_true_eq]
    exact fun he => hm (he ▸ ha)
  rw [hself, if_pos rfl]

theorem updateNode_fields (app : App) (i : Nat) (f : FSMState → FSMState) :
    (app.updateNode i f).selected_state = app.selected_state ∧
    (app.updateNode i f).secondary_selected_state = app.secondary_selected_state ∧
    (app.updateNode i f).new_state_name = app.new_state_name ∧
    (app.updateNode i f).nextId = app.nextId :=
  ⟨rfl, rfl, rfl, rfl⟩

theorem updateNode_ids {app : App} {i : Nat} {f : FSMState → FSMState}
    (hf : ∀ n, (f n).id = n.id) : (app.updateNode i f).ids = app.ids := by
  unfold App.updateNode App.ids
  simp only [List.map_map]
  apply List.map_congr_left
  intro n _
  by_cases h : n.id = i
  · simp [h, hf]
  · simp [h]

theorem mem_updateNode {app : App} {i : Nat} {f : FSMState → FSMState} {n' : FSMState} :
    n' ∈ (app.updateNode i f).states ↔
      ∃ n ∈ app.states, n' = if n.id == i then f n else n := by
  unfold App.updateNode
  simp only [List.mem_map]
  constructor
  · rintro ⟨n, hn, rfl⟩; exact ⟨n, hn, rfl⟩
  · rintro ⟨n, hn, rfl⟩; exact ⟨n, hn, rfl⟩

theorem updateNode_findNode {app : App} {i j : Nat} {f : FSMState → FSMState}
    (hf : ∀ n, (f n).id = n.id) :
    (app.updateNode i f).findNode j =
      (app.findNode j).map (fun n => if n.id == i then f n else n) := by
  unfold App.updateNode App.findNode
  rw [List.find?_map]
  have hp : ((fun n : FSMState => n.id == j) ∘ fun n => if n.id == i then f n else n) =
      (fun n : FSMState => n.id == j) := by
    funext n
    by_cases h : n.id = i
    · simp [h, hf]
    · simp [h]
  rw [hp]

theorem updateNode_self_mem {app : App} {f : FSMState → FSMState} {n : FSMState}
    (hn : n ∈ app.states) : f n ∈ (app.updateNode n.id f).states := by
  rw [mem_updateNode]
  exact ⟨n, hn, by simp⟩

theorem step_char_c {app : App} (hmode : app.new_state_name = none) :
    step app (.char 'c') = toggleConnect app := by
  unfold step
  rw [hmode]
  rfl

theorem toggleConnect_no_op {app : App}
    (h : app.upgrade app.selected_state = none ∨
         app.upgrade app.secondary_selected_state = none) :
    toggleConnect app = app := by
  unfold toggleConnect
  rcases h with h | h
  · rw [h]
  · rw [h]
    cases app.upgrade app.selected_state <;> rfl

theorem toggleConnect_mode (app : App) :
    (toggleConnect app).new_state_name = app.new_state_name := by
  unfold toggleConnect
  cases app.upgrade app.selected_state <;>
    cases app.upgrade app.secondary_selected_state <;> rfl

theorem toggleConnect_states {app : App} {sel sec : FSMState}
    (h1 : app.upgrade app.selected_state = some sel)
    (h2 : app.upgrade app.secondary_selected_state = some sec) :
    (toggleConnect app).states =
      app.states.map (fun n =>
        if n.id == sec.id then { n with next_states := newNext app sel sec } else n) := by
  rw [toggleConnect_eq h1 h2]
  rfl

theorem toggleConnect_sels {app : App} {sel sec : FSMState}
    (h1 : app.upgrade app.selected_state = some sel)
    (h2 : app.upgrade app.secondary_selected_state = some sec) :
    (toggleConnect app).selected_state = none ∧
      (toggleConnect app).secondary_selected_state = none := by
  rw [toggleConnect_eq h1 h2]
  exact ⟨rfl, rfl⟩

theorem upgrade_mem {app : App} {w : Option Nat} {n : FSMState}
    (h : app.upgrade w = some n) : n ∈ app.states :=
  (findNode_some (upgrade_some h).2).2

theorem mem_ids_of_mem {app : App} {n : FSMState} (h : n ∈ app.states) :
    n.id ∈ app.ids :=
  mem_ids_iff.mpr ⟨n, h, rfl⟩

theorem toggle_twice_restores {app app2 : App} {sel sec : FSMState}
    (hd : app.ids.Nodup)
    (h1 : app.upgrade app.selected_state = some sel)
    (h2 : app.upgrade app.secondary_selected_state = some sec)
    (hst : app2.states = (toggleConnect app).states)
    (hs1 : app2.selected_state = app.selected_state)
    (hs2 : app2.secondary_selected_state = app.secondary_selected_state) :
    ∀ n3 ∈ (toggleConnect app2).states,
      ∃ n0 ∈ app.states, n0.id = n3.id ∧
        ∀ t, t ∈ n3.next_states ↔ t ∈ n0.next_states := by
  have hsel_mem : sel ∈ app.states := upgrade_mem h1
  have hsec_mem : sec ∈ app.states := upgrade_mem h2
  have hselid : sel.id ∈ app.ids := mem_ids_of_mem hsel_mem
  obtain ⟨hw1, hfn1⟩ := upgrade_some h1
  obtain ⟨hw2, hfn2⟩ := upgrade_some h2
  have happ2states : app2.states =
      app.states.map (fun n =>
        if n.id == sec.id then { n with next_states := newNext app sel sec } else n) :=
    hst.trans (toggleConnect_states h1 h2)
  have happ2find : ∀ j, app2.findNode j =
      (app.findNode j).map (fun n =>
        if n.id == sec.id then { n with next_states := newNext app sel sec } else n) := by
    intro j
    have hs : app2.findNode j =
        (app.updateNode sec.id
          (fun n => { n with next_states := newNext app sel sec })).findNode j := by
      unfold App.findNode
      rw [happ2states]
      rfl
    rw [hs]
    exact updateNode_findNode (fun n => rfl)
  have hids2 : app2.ids = app.ids := by
    have hs : app2.ids =
        (app.updateNode sec.id
          (fun n => { n with next_states := newNext app sel sec })).ids := by
      unfold App.ids
      rw [happ2states]
      rfl
    rw [hs]
    exact updateNode_ids (fun n => rfl)
  have hg1selid : ((if sel.id == sec.id then
      { sel with next_states := newNext app sel sec } else sel) : FSMState).id = sel.id := by
    split <;> rfl
  have h1' : app2.upgrade app2.selected_state =
      some (if sel.id == sec.id then
        { sel with next_states := newNext app sel sec } else sel) := by
    rw [hs1, hw1]
    show app2.findNode sel.id = _
    rw [happ2find sel.id, hfn1]
    rfl
  have h2' : app2.upgrade app2.secondary_selected_state =
      some ({ sec with next_states := newNext app sel sec }) := by
    rw [hs2, hw2]
    show app2.findNode sec.id = _
    rw [happ2find sec.id, hfn2]
    simp
  intro n3 hn3
  rw [toggleConnect_states h1' h2', happ2states, List.map_map] at hn3
  obtain ⟨n0, hn0, hval⟩ := List.mem_map.mp hn3
  by_cases hid : n0.id = sec.id
  · have hn0sec : n0 = sec := id_inj hd hn0 hsec_mem hid
    subst hn0sec
    refine ⟨n0, hn0, ?_⟩
    simp only [Function.comp_apply, beq_self_eq_true, if_pos, hg1selid] at hval
    have hsel2ids : ((if sel.id == n0.id then
        { sel with next_states := newNext app sel n0 } else sel) : FSMState).id ∈ app2.ids := by
      rw [hg1selid, hids2]
      exact hselid
    by_cases hmem : sel.id ∈ n0.next_states
    · have hN1 : newNext app sel n0 = n0.next_states.filter (fun s => s != sel.id) :=
        newNext_of_mem hselid hmem
      have hnm2 : ((if sel.id == n0.id then
          { sel with next_states := newNext app sel n0 } else sel) : FSMState).id ∉
          ({ n0 with next_states := newNext app sel n0 } : FSMState).next_states := by
        rw [hg1selid]
        simp only [hN1, List.mem_filter]
        simp
      have hN2 := newNext_of_not_mem hsel2ids hnm2
      simp only [hg1selid] at hN2
      rw [hN2] at hval
      subst hval
      refine ⟨rfl, ?_⟩
      intro t
      simp only [hN1, List.mem_append, List.mem_filter, List.mem_singleton]
      by_cases ht : t = sel.id
      · subst ht
        simp [hmem]
      · simp [ht]
    · have hN1 : newNext app sel n0 = n0.next_states ++ [sel.id] :=
        newNext_of_not_mem hselid hmem
      have hm2 : ((if sel.id == n0.id then
          { sel with next_states := newNext app sel n0 } else sel) : FSMState).id ∈
          ({ n0 with next_states := newNext app sel n0 } : FSMState).next_states := by
        rw [hg1selid]
        simp [hN1]
      have hN2 := newNext_of_mem hsel2ids hm2
      simp only [hg1selid] at hN2
      rw [hN2] at hval
      subst hval
      refine ⟨rfl, ?_⟩
      intro t
      simp only [hN1, List.filter_append]
      have hfs : n0.next_states.filter (fun s => s != sel.id) = n0.next_states := by
        rw [List.filter_eq_self]
        intro a ha
        simp only [bne_iff_ne, ne_eq, decide_eq_true_eq]
        exact fun he => hmem (he ▸ ha)
      rw [hfs]
      simp
  · refine ⟨n0, hn0, ?_⟩
    have hg1 : ((fun n =>
        if n.id == sec.id then { n with next_states := newNext app sel sec } else n) n0) = n0 := by
      simp [hid]
    simp only [Function.comp_apply, hg1] at hval
    rw [if_neg (by simp [hid])] at hval
    subst hval
    exact ⟨rfl, fun t => Iff.rfl⟩

theorem findIdx?_append_cons {p : FSMState → Bool} :
    ∀ (F : List FSMState) (a : FSMState) (R : List FSMState),
      (∀ x ∈ F, p x = false) → p a = true →
      (F ++ a :: R).findIdx? p = some F.length
  | [], a, R, _, ha => by simp [List.findIdx?_cons, ha]
  | y :: F, a, R, hF, ha => by
    have hy : p y = false := hF y (by simp)
    have ih := findIdx?_append_cons F a R (fun x hx => hF x (by simp [hx])) ha
    simp only [List.cons_append, List.findIdx?_cons, hy, Bool.false_eq_true, if_false,
      List.findIdx?_succ, ih, Option.map_some]
    rfl

theorem swapRemove_decomp (F : List FSMState) (a : FSMState) (R : List FSMState) :
    List.Perm (swapRemove (F ++ a :: R) F.length) (F ++ R) := by
  rcases R.eq_nil_or_concat with rfl | ⟨R', z, rfl⟩
  · unfold swapRemove
    rw [List.getLast?_concat]
    show (((F ++ [a]).set F.length a).dropLast).Perm (F ++ [])
    have hset : (F ++ [a]).set F.length a = F ++ [a] := by
      rw [List.set_append_right _ _ le_rfl]
      simp
    rw [hset, List.dropLast_concat, List.append_nil]
  · unfold swapRemove
    simp only [List.concat_eq_append]
    have hassoc : F ++ a :: (R' ++ [z]) = (F ++ a :: R') ++ [z] := by simp
    rw [hassoc, List.getLast?_concat]
    show ((((F ++ a :: R') ++ [z]).set F.length z).dropLast).Perm (F ++ (R' ++ [z]))
    have hlt : F.length < (F ++ a :: R').length := by simp
    rw [List.set_append_left _ _ hlt]
    have hset : (F ++ a :: R').set F.length z = F ++ z :: R' := by
      rw [List.set_append_right _ _ le_rfl]
      simp
    rw [hset, List.dropLast_concat]
    refine (List.Perm.append_left F ?_)
    exact (List.perm_append_singleton z R').symm

theorem deleteSelected_char {app : App} {node : FSMState} (hd : app.ids.Nodup)
    (h1 : app.upgrade app.selected_state = some node) :
    ∃ F R, app.states = F ++ node :: R ∧
      (∀ x ∈ F, x.id ≠ node.id) ∧ (∀ x ∈ R, x.id ≠ node.id) ∧
      deleteSelected app = { app with states := swapRemove app.states F.length } ∧
      List.Perm (deleteSelected app).states (F ++ R) := by
  obtain ⟨F, R, hFR, hF, hR⟩ := mem_decomp_ids hd (upgrade_mem h1)
  have hidx : app.states.findIdx? (fun s => s.id == node.id) = some F.length := by
    rw [hFR]
    exact findIdx?_append_cons F node R (fun x hx => by simpa using hF x hx) (by simp)
  have heq : deleteSelected app = { app with states := swapRemove app.states F.length } := by
    unfold deleteSelected
    rw [h1]
    show (match app.states.findIdx? (fun s => s.id == node.id) with
      | some index => { app with states := swapRemove app.states index }
      | none => app) = _
    rw [hidx]
  refine ⟨F, R, hFR, hF, hR, heq, ?_⟩
  rw [heq]
  show List.Perm (swapRemove app.states F.length) (F ++ R)
  rw [hFR]
  exact swapRemove_decomp F node R

theorem deleteSelected_no_op {app : App}
    (h : app.upgrade app.selected_state = none) : deleteSelected app = app := by
  unfold deleteSelected
  rw [h]

theorem step_char_d {app : App} (hmode : app.new_state_name = none) :
    step app (.char 'd') = deleteSelected app := by
  unfold step
  rw [hmode]
  rfl

theorem dropWhile_decomp {p : FSMState → Bool} :
    ∀ (F : List FSMState) (a : FSMState) (R : List FSMState),
      (∀ x ∈ F, p x = true) → p a = false →
      (F ++ a :: R).dropWhile p = a :: R
  | [], a, R, _, ha => by simp [List.dropWhile_cons, ha]
  | y :: F, a, R, hF, ha => by
    have hy : p y = true := hF y (by simp)
    rw [List.cons_append, List.dropWhile_cons_of_pos hy]
    exact dropWhile_decomp F a R (fun x hx => hF x (by simp [hx])) ha

theorem id_ne_of_index {app : App} (hd : app.ids.Nodup) {j k : Nat}
    (hj : j < app.states.length) (hk : k < app.states.length) (hne : j ≠ k) :
    (app.states[j]).id ≠ (app.states[k]).id := by
  intro h
  apply hne
  have hjl : j < app.ids.length := by simpa [App.ids] using hj
  have hkl : k < app.ids.length := by simpa [App.ids] using hk
  have hij : app.ids[j] = app.ids[k] := by
    simpa [App.ids] using h
  exact (hd.getElem_inj_iff).mp hij

theorem tabStep_fields (app : App) :
    (tabStep app).states = app.states ∧ (tabStep app).new_state_name = app.new_state_name := by
  unfold tabStep
  repeat' split
  all_goals exact ⟨rfl, rfl⟩

theorem upgrade_of_nil {app : App} (h : app.states = []) (w : Option Nat) :
    app.upgrade w = none := by
  cases w with
  | none => rfl
  | some i =>
    show app.findNode i = none
    unfold App.findNode
    rw [h]
    rfl

theorem tabStep_empty {app : App} (h : app.states = []) : tabStep app = app := by
  unfold tabStep
  rw [upgrade_of_nil h]
  show (match app.states.head? with
    | some n => { app with selected_state := some n.id }
    | none => app) = app
  rw [h]
  rfl

theorem tabStep_first {app : App} (h : app.upgrade app.selected_state = none)
    (hne : app.states ≠ []) :
    (tabStep app).selected_state = (app.states[0]?).map (·.id) := by
  unfold tabStep
  rw [h]
  show (match app.states.head? with
    | some n => { app with selected_state := some n.id }
    | none => app).selected_state = _
  rw [← List.head?_eq_getElem?]
  cases hh : app.states.head? with
  | none => exact absurd (List.head?_eq_none_iff.mp hh) hne
  | some n => rfl

theorem tabStep_next {app : App} {node : FSMState} {i : Nat} (hd : app.ids.Nodup)
    (h1 : app.upgrade app.selected_state = some node)
    (hi : i < app.states.length) (hnode : app.states[i] = node) :
    (tabStep app).selected_state =
      (app.states[(i + 1) % app.states.length]?).map (·.id) := by
  have hN : 0 < app.states.length := Nat.lt_of_le_of_lt (Nat.zero_le i) hi
  have hdec : app.states = app.states.take i ++ node :: app.states.drop (i + 1) := by
    conv_lhs => rw [← List.take_append_drop i app.states]
    rw [List.drop_eq_getElem_cons hi, hnode]
  have hF : ∀ x ∈ app.states.take i, (x.id != node.id) = true := by
    intro x hx
    obtain ⟨j, hj, hx⟩ := List.mem_take_iff_getElem.mp hx
    have hji : j ≠ i := by omega
    have hjlen : j < app.states.length := by omega
    subst hx
    have hne := id_ne_of_index hd hjlen hi hji
    rw [hnode] at hne
    simpa using hne
  have hdw : app.states.dropWhile (fun s => s.id != node.id) =
      node :: app.states.drop (i + 1) := by
    conv_lhs => rw [hdec]
    exact dropWhile_decomp _ _ _ hF (by simp)
  unfold tabStep
  rw [h1]
  show (match ((app.states.dropWhile (fun s : FSMState => s.id != node.id))[1]? :
      Option FSMState) with
    | some n => { app with selected_state := some n.id }
    | none =>
      match (app.states.head? : Option FSMState) with
      | some n => { app with selected_state := some n.id }
      | none => app).selected_state = _
  rw [hdw]
  by_cases hlast : i + 1 < app.states.length
  · have hget : (node :: app.states.drop (i + 1))[1]? = app.states[i + 1]? := by
      rw [List.getElem?_cons_succ, List.getElem?_drop]
    rw [hget, List.getElem?_eq_getElem hlast]
    have hmod : (i + 1) % app.states.length = i + 1 := Nat.mod_eq_of_lt hlast
    rw [hmod, List.getElem?_eq_getElem hlast]
    rfl
  · have hiN : i + 1 = app.states.length := by omega
    have hget : (node :: app.states.drop (i + 1))[1]? = none := by
      rw [List.getElem?_cons_succ, List.getElem?_drop]
      apply List.getElem?_eq_none
      omega
    rw [hget]
    have hmod : (i + 1) % app.states.length = 0 := by
      rw [hiN]
      exact Nat.mod_self _
    rw [hmod, ← List.head?_eq_getElem?]
    cases hh : app.states.head? with
    | none =>
      exact absurd (List.head?_eq_none_iff.mp hh) (List.ne_nil_of_length_pos hN)
    | some n => rfl

theorem step_tab {app : App} (hmode : app.new_state_name = none) :
    step app .tab = tabStep app := by
  unfold step
  rw [hmode]

theorem ids_eq_of_states_eq {a b : App} (h : a.states = b.states) : a.ids = b.ids := by
  unfold App.ids
  rw [h]

theorem findNode_eq_of_states_eq {a b : App} (h : a.states = b.states) (i : Nat) :
    a.findNode i = b.findNode i := by
  unfold App.findNode
  rw [h]

theorem tab_iterate_aux {app : App} (hd : app.ids.Nodup) (hmode : app.new_state_name = none)
    (hsel : app.upgrade app.selected_state = none) :
    ∀ k, k < app.states.length →
      ((fun a => step a .tab)^[k + 1] app).states = app.states ∧
      ((fun a => step a .tab)^[k + 1] app).new_state_name = none ∧
      ((fun a => step a .tab)^[k + 1] app).selected_state =
        (app.states[k]?).map (·.id) := by
  intro k
  induction k with
  | zero =>
    intro hk
    rw [Function.iterate_one]
    rw [step_tab hmode]
    have hne : app.states ≠ [] := List.ne_nil_of_length_pos hk
    exact ⟨(tabStep_fields app).1, ((tabStep_fields app).2).trans hmode,
      tabStep_first hsel hne⟩
  | succ k ih =>
    intro hk1
    have hk : k < app.states.length := Nat.lt_of_succ_lt hk1
    obtain ⟨ihs, ihm, ihsel⟩ := ih hk
    rw [Function.iterate_succ_apply']
    rw [step_tab ihm]
    set b := (fun a => step a .tab)^[k + 1] app with hb
    have hbd : b.ids.Nodup := by
      rw [ids_eq_of_states_eq ihs]
      exact hd
    have hib : k < b.states.length := by
      rw [ihs]
      exact hk
    have hnodeb : b.states[k] = app.states[k] := by
      simp only [ihs]
    have hupg : b.upgrade b.selected_state = some (app.states[k]) := by
      rw [ihsel, List.getElem?_eq_getElem hk]
      show b.findNode ((app.states[k]).id) = _
      rw [findNode_eq_of_states_eq ihs]
      have hmem : app.states[k] ∈ app.states := List.getElem_mem hk
      have := findNode_of_mem hd hmem
      exact this
    have hnext := tabStep_next hbd hupg hib hnodeb
    refine ⟨((tabStep_fields b).1).trans ihs, ((tabStep_fields b).2).trans ihm, ?_⟩
    rw [hnext]
    have hmod : (k + 1) % b.states.length = k + 1 := by
      rw [ihs]
      exact Nat.mod_eq_of_lt hk1
    rw [hmod, ihs]

theorem WF_of_eq {a b : App} (h : WF a) (hs : b.states = a.states)
    (hn : b.nextId = a.nextId) : WF b := by
  obtain ⟨h1, h2, h3, h4⟩ := h
  have hids : b.ids = a.ids := ids_eq_of_states_eq hs
  refine ⟨?_, ?_, ?_, ?_⟩
  · rw [hids]
    exact h1
  · rw [hs, hn]
    exact h2
  · rw [hs, hn]
    exact h3
  · rw [hs, hids]
    exact h4

theorem WF_updateNode {app : App} {i : Nat} {f : FSMState → FSMState} (h : WF app)
    (hfid : ∀ n, (f n).id = n.id) (hfnext : ∀ n, (f n).next_states = n.next_states) :
    WF (app.updateNode i f) := by
  obtain ⟨h1, h2, h3, h4⟩ := h
  have hids : (app.updateNode i f).ids = app.ids := updateNode_ids hfid
  have hmem : ∀ n' ∈ (app.updateNode i f).states,
      ∃ n ∈ app.states, n'.id = n.id ∧ n'.next_states = n.next_states := by
    intro n' hn'
    obtain ⟨n, hn, hval⟩ := mem_updateNode.mp hn'
    refine ⟨n, hn, ?_⟩
    by_cases hb : n.id == i
    · rw [hval, if_pos hb]
      exact ⟨hfid n, hfnext n⟩
    · rw [hval, if_neg hb]
      exact ⟨rfl, rfl⟩
  refine ⟨?_, ?_, ?_, ?_⟩
  · rw [hids]
    exact h1
  · intro n' hn'
    obtain ⟨n, hn, hid, -⟩ := hmem n' hn'
    rw [hid]
    exact h2 n hn
  · intro n' hn' t ht
    obtain ⟨n, hn, -, hnext⟩ := hmem n' hn'
    rw [hnext] at ht
    exact h3 n hn t ht
  · intro n' hn'
    obtain ⟨n, hn, -, hnext⟩ := hmem n' hn'
    rw [hnext, hids]
    exact h4 n hn

theorem tabStep_nextId (app : App) : (tabStep app).nextId = app.nextId := by
  unfold tabStep
  repeat' split
  all_goals rfl

theorem WF_init : WF App.new := by
  refine ⟨List.nodup_nil, ?_, ?_, ?_⟩ <;> intro n hn <;> exact absurd hn (by simp [App.new])

theorem findNode_isSome (app : App) (t : Nat) :
    (app.findNode t).isSome = decide (t ∈ app.ids) := by
  cases hfn : app.findNode t with
  | none =>
    have := findNode_eq_none.mp hfn
    simp [this]
  | some n =>
    obtain ⟨hid, hmem⟩ := findNode_some hfn
    have : t ∈ app.ids := hid ▸ mem_ids_of_mem hmem
    simp [this]

theorem mem_newNext {app : App} {sel sec : FSMState} {t : Nat}
    (ht : t ∈ newNext app sel sec) : t ∈ sec.next_states ∨ t = sel.id := by
  unfold newNext at ht
  by_cases hc : sec.next_states.length =
      (sec.next_states.filter (retainKeep app sel)).length
  · rw [if_pos hc] at ht
    rcases List.mem_append.mp ht with h | h
    · exact Or.inl (List.mem_filter.mp h).1
    · exact Or.inr (by simpa using h)
  · rw [if_neg hc] at ht
    exact Or.inl (List.mem_filter.mp ht).1

theorem WF_enter {app : App} (h : WF app) (buf : List Char) :
    WF { app with
      new_state_name := none,
      selected_state := some app.nextId,
      states := app.states ++
        [{ id := app.nextId, x := 200, y := 200, name := buf, next_states := [] }],
      nextId := app.nextId + 1 } := by
  obtain ⟨h1, h2, h3, h4⟩ := h
  have hnotin : app.nextId ∉ app.ids := by
    intro hmem
    obtain ⟨n, hn, hid⟩ := mem_ids_iff.mp hmem
    exact absurd (hid ▸ h2 n hn) (lt_irrefl _)
  have hids' : App.ids { app with
      new_state_name := none,
      selected_state := some app.nextId,
      states := app.states ++
        [{ id := app.nextId, x := 200, y := 200, name := buf, next_states := [] }],
      nextId := app.nextId + 1 } = app.ids ++ [app.nextId] := by
    unfold App.ids
    simp
  refine ⟨?_, ?_, ?_, ?_⟩
  · rw [hids']
    rw [List.nodup_append]
    exact ⟨h1, List.nodup_singleton _, by simpa using hnotin⟩
  · intro n hn
    rcases List.mem_append.mp hn with hn | hn
    · exact Nat.lt_succ_of_lt (h2 n hn)
    · rcases List.mem_singleton.mp hn with rfl
      exact Nat.lt_succ_self _
  · intro n hn t ht
    rcases List.mem_append.mp hn with hn | hn
    · exact Nat.lt_succ_of_lt (h3 n hn t ht)
    · rcases List.mem_singleton.mp hn with rfl
      exact absurd ht (by simp)
  · intro n hn
    rw [hids']
    rcases List.mem_append.mp hn with hn | hn
    · have hcong : n.next_states.filter (fun t => decide (t ∈ app.ids ++ [app.nextId])) =
          n.next_states.filter (fun t => decide (t ∈ app.ids)) := by
        apply List.filter_congr
        intro t ht
        have hlt : t < app.nextId := h3 n hn t ht
        have : t ≠ app.nextId := Nat.ne_of_lt hlt
        simp [List.mem_append, this]
      rw [hcong]
      exact h4 n hn
    · rcases List.mem_singleton.mp hn with rfl
      simp

theorem WF_toggleConnect {app : App} (h : WF app) : WF (toggleConnect app) := by
  cases h1 : app.upgrade app.selected_state with
  | none => rw [toggleConnect_no_op (Or.inl h1)]; exact h
  | some sel =>
  cases h2 : app.upgrade app.secondary_selected_state with
  | none => rw [toggleConnect_no_op (Or.inr h2)]; exact h
  | some sec =>
  obtain ⟨h1n, h2n, h3n, h4n⟩ := h
  have hsel_mem : sel ∈ app.states := upgrade_mem h1
  have hsec_mem : sec ∈ app.states := upgrade_mem h2
  have hselid : sel.id ∈ app.ids := mem_ids_of_mem hsel_mem
  have hstates : (toggleConnect app).states =
      app.states.map (fun n =>
        if n.id == sec.id then { n with next_states := newNext app sel sec } else n) :=
    toggleConnect_states h1 h2
  have hnextId : (toggleConnect app).nextId = app.nextId := by
    rw [toggleConnect_eq h1 h2]
    rfl
  have hids : (toggleConnect app).ids = app.ids := by
    have hu : (toggleConnect app).ids =
        (app.updateNode sec.id
          (fun n => { n with next_states := newNext app sel sec })).ids := by
      unfold App.ids
      rw [hstates]
      rfl
    rw [hu]
    exact updateNode_ids (fun n => rfl)
  have hmem : ∀ n' ∈ (toggleConnect app).states,
      ∃ n ∈ app.states, n'.id = n.id ∧
        (n'.next_states = n.next_states ∨
          (n = sec ∧ n'.next_states = newNext app sel sec)) := by
    intro n' hn'
    rw [hstates] at hn'
    obtain ⟨n, hn, hval⟩ := List.mem_map.mp hn'
    by_cases hb : n.id = sec.id
    · have hnsec : n = sec := id_inj h1n hn hsec_mem hb
      subst hnsec
      rw [if_pos (by simp)] at hval
      exact ⟨n, hn, by rw [← hval], Or.inr ⟨rfl, by rw [← hval]⟩⟩
    · rw [if_neg (by simp [hb])] at hval
      exact ⟨n, hn, by rw [← hval], Or.inl (by rw [← hval])⟩
  refine ⟨?_, ?_, ?_, ?_⟩
  · rw [hids]
    exact h1n
  · intro n' hn'
    obtain ⟨n, hn, hid, -⟩ := hmem n' hn'
    rw [hnextId, hid]
    exact h2n n hn
  · intro n' hn' t ht
    rw [hnextId]
    obtain ⟨n, hn, -, hnext | ⟨hnsec, hnext⟩⟩ := hmem n' hn'
    · rw [hnext] at ht
      exact h3n n hn t ht
    · rw [hnext] at ht
      rcases mem_newNext ht with hm | rfl
      · subst hnsec
        exact h3n n hn t hm
      · exact h2n sel hsel_mem
  · intro n' hn'
    rw [hids]
    obtain ⟨n, hn, -, hnext | ⟨hnsec, hnext⟩⟩ := hmem n' hn'
    · rw [hnext]
      exact h4n n hn
    · subst hnsec
      rw [hnext]
      by_cases hmemsel : sel.id ∈ n.next_states
      · rw [newNext_of_mem hselid hmemsel, List.filter_filter]
        have hsub : List.Sublist (n.next_states.filter
            (fun a => decide (a ∈ app.ids) && (a != sel.id)))
            (n.next_states.filter (fun a => decide (a ∈ app.ids))) := by
          apply List.monotone_filter_right
          intro a ha
          exact (Bool.and_elim_left ha)
        exact hsub.nodup (h4n n hn)
      · rw [newNext_of_not_mem hselid hmemsel, List.filter_append]
        rw [List.nodup_append]
        refine ⟨h4n n hn, List.Nodup.filter _ (List.nodup_singleton _), ?_⟩
        intro a ha hb
        have ha' : a ∈ n.next_states := (List.mem_filter.mp ha).1
        obtain ⟨haeq, -⟩ : a = sel.id ∧ a ∈ app.ids := by simpa using hb
        subst haeq
        exact hmemsel ha'

theorem WF_deleteSelected {app : App} (h : WF app) : WF (deleteSelected app) := by
  cases h1 : app.upgrade app.selected_state with
  | none => rw [deleteSelected_no_op h1]; exact h
  | some node =>
  obtain ⟨h1n, h2n, h3n, h4n⟩ := h
  obtain ⟨F, R, hFR, hF, hR, heq, hperm⟩ := deleteSelected_char h1n h1
  have hnextId : (deleteSelected app).nextId = app.nextId := by
    rw [heq]
  have hsubl : List.Sublist (F ++ R) app.states := by
    rw [hFR]
    exact List.Sublist.append_left (List.sublist_cons_self node R) F
  have hmem : ∀ n' ∈ (deleteSelected app).states, n' ∈ app.states := by
    intro n' hn'
    exact hsubl.mem (hperm.mem_iff.mp hn')
  have hidsub : ∀ t, t ∈ (deleteSelected app).ids → t ∈ app.ids := by
    intro t ht
    obtain ⟨n, hn, hid⟩ := mem_ids_iff.mp ht
    exact hid ▸ mem_ids_of_mem (hmem n hn)
  refine ⟨?_, ?_, ?_, ?_⟩
  · have h1n' : (app.states.map (fun n => n.id)).Nodup := h1n
    have hnodupFR : ((F ++ R).map (fun n => n.id)).Nodup :=
      ((hsubl.map (fun n => n.id)).nodup h1n')
    have hpm : List.Perm ((deleteSelected app).states.map (fun n => n.id))
        ((F ++ R).map (fun n => n.id)) :=
      hperm.map (fun n => n.id)
    have : ((deleteSelected app).states.map (fun n => n.id)).Nodup :=
      hnodupFR.perm hpm.symm
    exact this
  · intro n' hn'
    rw [hnextId]
    exact h2n n' (hmem n' hn')
  · intro n' hn' t ht
    rw [hnextId]
    exact h3n n' (hmem n' hn') t ht
  · intro n' hn'
    have hsubf : List.Sublist
        (n'.next_states.filter (fun t => decide (t ∈ (deleteSelected app).ids)))
        (n'.next_states.filter (fun t => decide (t ∈ app.ids))) := by
      apply List.monotone_filter_right
      intro a ha
      have : a ∈ (deleteSelected app).ids := of_decide_eq_true ha
      exact decide_eq_true (hidsub a this)
    exact hsubf.nodup (h4n n' (hmem n' hn'))

theorem WF_tabStep {app : App} (h : WF app) : WF (tabStep app) :=
  WF_of_eq h (tabStep_fields app).1 (tabStep_nextId app)

theorem WF_moveSelected {app : App} (dx dy : ℚ) (h : WF app) :
    WF (moveSelected app dx dy) := by
  unfold moveSelected
  split
  · exact WF_updateNode h (fun n => rfl) (fun n => rfl)
  · exact h

theorem WF_step {app : App} (h : WF app) (k : KeyCode) : WF (step app k) := by
  unfold step
  split
  · split
    all_goals
      first
      | exact h
      | exact WF_of_eq h rfl rfl
      | exact WF_enter h _
  · split
    all_goals
      first
      | exact h
      | exact WF_of_eq h rfl rfl
      | exact WF_toggleConnect h
      | exact WF_deleteSelected h
      | exact WF_tabStep h
      | exact WF_moveSelected _ _ h

theorem reachable_WF {app : App} (h : Reachable app) : WF app := by
  induction h with
  | init => exact WF_init
  | next k _ ih => exact WF_step ih k

theorem tab_iterate_wrap {app : App} (hd : app.ids.Nodup)
    (hmode : app.new_state_name = none)
    (hsel : app.upgrade app.selected_state = none) (hne : app.states ≠ []) :
    ((fun a => step a .tab)^[app.states.length + 1] app).selected_state =
      (app.states[0]?).map (·.id) := by
  have hN : 0 < app.states.length := List.length_pos.mpr hne
  obtain ⟨ihs, ihm, ihsel⟩ :=
    tab_iterate_aux hd hmode hsel (app.states.length - 1) (by omega)
  have hlen : app.states.length - 1 + 1 = app.states.length := by omega
  rw [hlen] at ihs ihm ihsel
  rw [Function.iterate_succ_apply']
  rw [step_tab ihm]
  have hk : app.states.length - 1 < app.states.length := by omega
  set b := (fun a => step a .tab)^[app.states.length] app with hb
  have hbd : b.ids.Nodup := by
    rw [ids_eq_of_states_eq ihs]
    exact hd
  have hib : app.states.length - 1 < b.states.length := by
    rw [ihs]
    exact hk
  have hnodeb : b.states[app.states.length - 1] =
      app.states[app.states.length - 1] := by
    simp only [ihs]
  have hupg : b.upgrade b.selected_state =
      some (app.states[app.states.length - 1]) := by
    rw [ihsel, List.getElem?_eq_getElem hk]
    show b.findNode ((app.states[app.states.length - 1]).id) = _
    rw [findNode_eq_of_states_eq ihs]
    have hmem : app.states[app.states.length - 1] ∈ app.states := List.getElem_mem hk
    exact findNode_of_mem hd hmem
  have hnext := tabStep_next hbd hupg hib hnodeb
  rw [hnext]
  have hmod : (app.states.length - 1 + 1) % b.states.length = 0 := by
    rw [ihs, hlen]
    exact Nat.mod_self _
  rw [hmod, ihs]

/-- C1: with both the primary and the secondary selection resolving to live
nodes, toggle-connect clears both selection slots, leaves every node other
than the secondary unchanged, and on the secondary node removes the outgoing
reference to the primary when one is present (tested by node identity) and
otherwise adds exactly one such reference, leaving other references alone;
with either slot unresolved it is a no-op; and re-selecting the same pair and
toggling again restores the original edge set of every node. -/
theorem toggle_connect_correct (app : App) (hwf : WF app)
    (hmode : app.new_state_name = none) :
    (∀ sel sec, app.upgrade app.selected_state = some sel →
        app.upgrade app.secondary_selected_state = some sec →
      (step app (.char 'c')).selected_state = none ∧
      (step app (.char 'c')).secondary_selected_state = none ∧
      (∀ n' ∈ (step app (.char 'c')).states, n'.id ≠ sec.id → n' ∈ app.states) ∧
      (∃ sec' ∈ (step app (.char 'c')).states, sec'.id = sec.id ∧
        (∀ t, t ≠ sel.id → (t ∈ sec'.next_states ↔ t ∈ sec.next_states)) ∧
        (sel.id ∈ sec.next_states → sel.id ∉ sec'.next_states) ∧
        (sel.id ∉ sec.next_states → sec'.next_states.count sel.id = 1)) ∧
      (∀ n3 ∈ (step { step app (.char 'c') with
            selected_state := app.selected_state,
            secondary_selected_state := app.secondary_selected_state } (.char 'c')).states,
        ∃ n0 ∈ app.states, n0.id = n3.id ∧
          ∀ t, t ∈ n3.next_states ↔ t ∈ n0.next_states)) ∧
    ((app.upgrade app.selected_state = none ∨
        app.upgrade app.secondary_selected_state = none) →
      step app (.char 'c') = app) := by
  obtain ⟨hd, -, -, -⟩ := hwf
  rw [step_char_c hmode]
  constructor
  · intro sel sec h1 h2
    have hsel_mem : sel ∈ app.states := upgrade_mem h1
    have hsec_mem : sec ∈ app.states := upgrade_mem h2
    have hselid : sel.id ∈ app.ids := mem_ids_of_mem hsel_mem
    obtain ⟨hc1, hc2⟩ := toggleConnect_sels h1 h2
    refine ⟨hc1, hc2, ?_, ?_, ?_⟩
    · intro n' hn' hne
      rw [toggleConnect_states h1 h2] at hn'
      obtain ⟨n, hn, hval⟩ := List.mem_map.mp hn'
      by_cases h : n.id = sec.id
      · rw [if_pos (by simp [h])] at hval
        subst hval
        exact absurd h hne
      · rw [if_neg (by simp [h])] at hval
        subst hval
        exact hn
    · refine ⟨{ sec with next_states := newNext app sel sec }, ?_, rfl, ?_, ?_, ?_⟩
      · rw [toggleConnect_states h1 h2]
        exact List.mem_map.mpr ⟨sec, hsec_mem, by simp⟩
      · intro t ht
        by_cases hmem : sel.id ∈ sec.next_states
        · rw [newNext_of_mem hselid hmem]
          show t ∈ List.filter (fun s => s != sel.id) sec.next_states ↔ _
          simp [List.mem_filter, ht]
        · rw [newNext_of_not_mem hselid hmem]
          show t ∈ sec.next_states ++ [sel.id] ↔ _
          simp [List.mem_append, ht]
      · intro hmem
        rw [newNext_of_mem hselid hmem]
        show sel.id ∉ List.filter (fun s => s != sel.id) sec.next_states
        simp [List.mem_filter]
      · intro hmem
        rw [newNext_of_not_mem hselid hmem]
        show List.count sel.id (sec.next_states ++ [sel.id]) = 1
        rw [List.count_append]
        rw [List.count_eq_zero_of_not_mem hmem]
        simp
    · have hmode1 : ({ toggleConnect app with
          selected_state := app.selected_state,
          secondary_selected_state := app.secondary_selected_state } : App).new_state_name =
          none := (toggleConnect_mode app).trans hmode
      rw [step_char_c hmode1]
      exact toggle_twice_restores hd h1 h2 rfl rfl rfl
  · exact toggleConnect_no_op

/-- Witness for C1: in the concrete two-node state `appW2` the hypotheses
hold and toggle-connect clears the primary selection. -/
theorem toggle_connect_correct_witness :
    WF appW2 ∧
    appW2.upgrade appW2.selected_state =
      some { id := 1, x := 200, y := 200, name := ['B'], next_states := [] } ∧
    (step appW2 (.char 'c')).selected_state = none := by
  have h := toggle_connect_correct appW2 (by decide) rfl
  refine ⟨by decide, by decide, ?_⟩
  exact (h.1
    { id := 1, x := 200, y := 200, name := ['B'], next_states := [] }
    { id := 0, x := 200, y := 200, name := ['A'], next_states := [] }
    (by decide) (by decide)).1

/-- C2: with a live primary selection, delete removes exactly the selected
node (node count drops by one, membership loses exactly that node), the
primary slot no longer resolves afterwards, the secondary slot no longer
resolves if it referenced the deleted node, and no remaining reference to the
deleted node resolves it as live; with no resolving primary it is a no-op. -/
theorem delete_correct (app : App) (hwf : WF app) (hmode : app.new_state_name = none) :
    (∀ node, app.upgrade app.selected_state = some node →
      (step app (.char 'd')).states.length = app.states.length - 1 ∧
      (∀ n', n' ∈ (step app (.char 'd')).states ↔ (n' ∈ app.states ∧ n' ≠ node)) ∧
      (step app (.char 'd')).upgrade (step app (.char 'd')).selected_state = none ∧
      (app.upgrade app.secondary_selected_state = some node →
        (step app (.char 'd')).upgrade (step app (.char 'd')).secondary_selected_state = none) ∧
      (∀ n' ∈ (step app (.char 'd')).states, ∀ t ∈ n'.next_states, t = node.id →
        (step app (.char 'd')).findNode t = none)) ∧
    (app.upgrade app.selected_state = none → step app (.char 'd') = app) := by
  obtain ⟨hd, -, -, -⟩ := hwf
  rw [step_char_d hmode]
  constructor
  · intro node h1
    obtain ⟨F, R, hFR, hF, hR, heq, hperm⟩ := deleteSelected_char hd h1
    obtain ⟨hw1, hfn1⟩ := upgrade_some h1
    have hnotid : ∀ x ∈ F ++ R, x.id ≠ node.id := by
      intro x hx
      rcases List.mem_append.mp hx with hx | hx
      · exact hF x hx
      · exact hR x hx
    have hfind_none : (deleteSelected app).findNode node.id = none := by
      apply findNode_eq_none.mpr
      intro hmem
      obtain ⟨n, hn, hnid⟩ := mem_ids_iff.mp hmem
      exact hnotid n (hperm.mem_iff.mp hn) hnid
    refine ⟨?_, ?_, ?_, ?_, ?_⟩
    · have hlen1 := hperm.length_eq
      have hlen2 : app.states.length = F.length + R.length + 1 := by
        rw [hFR]
        simp
        omega
      rw [hlen1, List.length_append]
      omega
    · intro n'
      rw [hperm.mem_iff]
      constructor
      · intro hn'
        have hmem0 : n' ∈ app.states := by
          rw [hFR]
          rcases List.mem_append.mp hn' with h | h
          · exact List.mem_append.mpr (Or.inl h)
          · exact List.mem_append.mpr (Or.inr (List.mem_cons_of_mem _ h))
        refine ⟨hmem0, ?_⟩
        intro hne
        subst hne
        exact hnotid n' hn' rfl
      · rintro ⟨hn', hne⟩
        rw [hFR] at hn'
        rcases List.mem_append.mp hn' with h | h
        · exact List.mem_append.mpr (Or.inl h)
        · rcases List.mem_cons.mp h with h | h
          · exact absurd h hne
          · exact List.mem_append.mpr (Or.inr h)
    · have hsel' : (deleteSelected app).selected_state = some node.id := by
        rw [heq]
        exact hw1
      rw [hsel']
      show (deleteSelected app).findNode node.id = none
      exact hfind_none
    · intro h2
      obtain ⟨hw2, -⟩ := upgrade_some h2
      have hsec' : (deleteSelected app).secondary_selected_state = some node.id := by
        rw [heq]
        exact hw2
      rw [hsec']
      show (deleteSelected app).findNode node.id = none
      exact hfind_none
    · intro n' _ t _ ht
      rw [ht]
      exact hfind_none
  · exact deleteSelected_no_op

/-- Witness for C2: deleting in the two-node state `appW2` leaves one node. -/
theorem delete_correct_witness :
    appW2.upgrade appW2.selected_state =
      some { id := 1, x := 200, y := 200, name := ['B'], next_states := [] } ∧
    (step appW2 (.char 'd')).states.length = 1 := by
  have h := delete_correct appW2 (by decide) rfl
  have h2 := (h.1 { id := 1, x := 200, y := 200, name := ['B'], next_states := [] }
    (by decide)).1
  refine ⟨by decide, ?_⟩
  rw [h2]
  decide

/-- C3: on an empty graph tab is a no-op; with no resolving primary it
selects the first node; with a live primary at index i it selects the node at
index (i+1) modulo the node count (the next node in iteration order, wrapping
from the last to the first); and starting from no selection, the k-th of
N tab presses selects the k-th node, so N presses visit each node exactly
once in iteration order, and press N+1 wraps back to the first node. -/
theorem tab_correct (app : App) (hwf : WF app) (hmode : app.new_state_name = none) :
    (app.states = [] → step app .tab = app) ∧
    (app.upgrade app.selected_state = none → app.states ≠ [] →
      (step app .tab).selected_state = (app.states[0]?).map (·.id)) ∧
    (∀ node i (hi : i < app.states.length),
      app.upgrade app.selected_state = some node → app.states[i] = node →
      (step app .tab).selected_state =
        (app.states[(i + 1) % app.states.length]?).map (·.id)) ∧
    (app.upgrade app.selected_state = none →
      ∀ k, k < app.states.length →
        ((fun a => step a .tab)^[k + 1] app).selected_state =
          (app.states[k]?).map (·.id)) ∧
    (app.upgrade app.selected_state = none → app.states ≠ [] →
      ((fun a => step a .tab)^[app.states.length + 1] app).selected_state =
        (app.states[0]?).map (·.id)) := by
  obtain ⟨hd, -, -, -⟩ := hwf
  refine ⟨?_, ?_, ?_, ?_, ?_⟩
  · intro hnil
    rw [step_tab hmode]
    exact tabStep_empty hnil
  · intro hsel hne
    rw [step_tab hmode]
    exact tabStep_first hsel hne
  · intro node i hi h1 hnode
    rw [step_tab hmode]
    exact tabStep_next hd h1 hi hnode
  · intro hsel k hk
    exact (tab_iterate_aux hd hmode hsel k hk).2.2
  · intro hsel hne
    exact tab_iterate_wrap hd hmode hsel hne

/-- Witness for C3: in the two-node state `appW2`, one tab press from the
primary at index 1 wraps the selection to index (1+1) mod 2 = 0. -/
theorem tab_correct_witness :
    (1 < appW2.states.length) ∧
    (step appW2 .tab).selected_state =
      (appW2.states[(1 + 1) % appW2.states.length]?).map (·.id) := by
  have h := tab_correct appW2 (by decide) rfl
  have hi : 1 < appW2.states.length := by decide
  refine ⟨hi, ?_⟩
  exact h.2.2.1 { id := 1, x := 200, y := 200, name := ['B'], next_states := [] }
    1 hi (by decide) rfl

/-- C4: while naming, a character key appends to the buffer, Backspace drops
the last buffer character and is a no-op on an empty buffer, Enter creates
exactly one node at (200, 200) named by the buffer with no outgoing
references, clears the buffer, returns to normal mode and primary-selects the
new node, Escape only clears the buffer and returns to normal mode, and every
other key leaves the state unchanged. -/
theorem naming_mode_correct (app : App) :
    ∀ buf, app.new_state_name = some buf →
      (∀ c, step app (.char c) = { app with new_state_name := some (buf ++ [c]) }) ∧
      (step app .backspace = { app with new_state_name := some buf.dropLast }) ∧
      (buf = [] → step app .backspace = app) ∧
      (step app .enter = { app with
        new_state_name := none,
        selected_state := some app.nextId,
        states := app.states ++
          [{ id := app.nextId, x := 200, y := 200, name := buf, next_states := [] }],
        nextId := app.nextId + 1 }) ∧
      ((step app .enter).states.length = app.states.length + 1) ∧
      (step app .esc = { app with new_state_name := none }) ∧
      (∀ k, k = KeyCode.tab ∨ k = KeyCode.left ∨ k = KeyCode.right ∨ k = KeyCode.up ∨
        k = KeyCode.down ∨ k = KeyCode.other → step app k = app) := by
  intro buf hbuf
  refine ⟨?_, ?_, ?_, ?_, ?_, ?_, ?_⟩
  · intro c
    unfold step
    rw [hbuf]
  · unfold step
    rw [hbuf]
    by_cases hemp : buf.isEmpty
    · have : buf = [] := List.isEmpty_iff.mp hemp
      subst this
      rfl
    · simp only [hemp, Bool.false_eq_true, if_false]
  · intro hnil
    subst hnil
    unfold step
    rw [hbuf]
    show { app with new_state_name := some [] } = app
    rw [← hbuf]
  · unfold step
    rw [hbuf]
  · unfold step
    rw [hbuf]
    show (app.states ++ [_]).length = _
    simp
  · unfold step
    rw [hbuf]
  · rintro k (rfl | rfl | rfl | rfl | rfl | rfl) <;> (unfold step; rw [hbuf])

/-- Witness for C4: after entering naming mode, typing Idle and pressing
Backspace twice the buffer is exactly Id, and Escape then creates no node
and returns to normal mode. -/
theorem naming_mode_correct_witness :
    appId.new_state_name = some ['I', 'd'] ∧
    (step appId .esc).new_state_name = none ∧
    (step appId .esc).states = appId.states := by
  have h := naming_mode_correct appId ['I', 'd'] (by decide)
  have hesc := h.2.2.2.2.2.1
  refine ⟨by decide, ?_, ?_⟩
  · rw [hesc]
  · rw [hesc]

/-- C5: in every reachable editor state, no node's outgoing list contains two
references that resolve to the same live target (the live-resolving entries
of every outgoing list are pairwise distinct). -/
theorem no_duplicate_live_edges (app : App) (h : Reachable app) :
    ∀ n ∈ app.states,
      (n.next_states.filter (fun t => (app.findNode t).isSome)).Nodup := by
  obtain ⟨-, -, -, h4⟩ := reachable_WF h
  intro n hn
  have hcong : n.next_states.filter (fun t => (app.findNode t).isSome) =
      n.next_states.filter (fun t => decide (t ∈ app.ids)) :=
    List.filter_congr (fun t _ => findNode_isSome app t)
  rw [hcong]
  exact h4 n hn

/-- Witness for C5: the reachable one-node state `appR` satisfies the
no-duplicate-live-references property at its node. -/
theorem no_duplicate_live_edges_witness :
    nodeI ∈ appR.states ∧
    (nodeI.next_states.filter (fun t => (appR.findNode t).isSome)).Nodup := by
  have h := no_duplicate_live_edges appR
    (Reachable.next .enter (Reachable.next (.char 'I')
      (Reachable.next (.char 'n') Reachable.init)))
  exact ⟨by decide, h _ (by decide)⟩

/-- C10: in every reachable editor state, a selection slot that resolves
refers to a node in the graph collection, the delete handler's position
lookup for a resolving primary succeeds at an in-range index, and the graph
is then non-empty, so the tab handler's first-node fallback is safe. -/
theorem selection_resolution_safe (app : App) (h : Reachable app) :
    (∀ node, app.upgrade app.selected_state = some node → node ∈ app.states) ∧
    (∀ node, app.upgrade app.secondary_selected_state = some node → node ∈ app.states) ∧
    (∀ node, app.upgrade app.selected_state = some node →
      (∃ i, app.states.findIdx? (fun s => s.id == node.id) = some i ∧
        i < app.states.length) ∧ app.states ≠ []) := by
  have hd := (reachable_WF h).1
  refine ⟨fun node h1 => upgrade_mem h1, fun node h2 => upgrade_mem h2, ?_⟩
  intro node h1
  obtain ⟨F, R, hFR, hF, -⟩ := mem_decomp_ids hd (upgrade_mem h1)
  have hidx : (F ++ node :: R).findIdx? (fun s => s.id == node.id) = some F.length :=
    findIdx?_append_cons F node R (fun x hx => by simpa using hF x hx) (by simp)
  constructor
  · refine ⟨F.length, ?_, ?_⟩
    · rw [hFR]
      exact hidx
    · rw [hFR]
      simp
  · intro hnil
    rw [hnil] at hFR
    exact absurd hFR.symm (by simp)

/-- Witness for C10: in the reachable one-node state `appR` the primary
selection resolves, its node is in the collection, and the graph is
non-empty. -/
theorem selection_resolution_safe_witness :
    nodeI ∈ appR.states ∧ appR.states ≠ [] := by
  have h := selection_resolution_safe appR
    (Reachable.next .enter (Reachable.next (.char 'I')
      (Reachable.next (.char 'n') Reachable.init)))
  refine ⟨h.1 nodeI (by decide), ?_⟩
  exact (h.2.2 nodeI (by decide)).2

/-- C6: for any source and target node, the rendered edge of
`FSMState::draw` equals the spec formula: direction is the normalized
target-minus-source vector scaled by 1.5, the shaft runs from source position
plus direction times source radius to target position minus direction times
target radius, and the two arrowhead wings are the normalized end-to-start
vector rotated by plus and minus 45 degrees, scaled by 10 and added to the
shaft end. -/
theorem edge_geometry_matches_spec (source target : FSMState) :
    edgeGeometry source target = edgeGeometrySpec source target := by
  unfold edgeGeometry edgeGeometrySpec
  simp only [rotate_eq_rotateStdSpec]

/-- C7: the derived circle radius is max(10, 2 * length(name) + 5) and is
monotonically non-decreasing in the name length. -/
theorem circle_radius_formula :
    (∀ s : FSMState, s.circle_radius = max 10 (2 * s.name.length + 5)) ∧
    (∀ s1 s2 : FSMState, s1.name.length ≤ s2.name.length →
      s1.circle_radius ≤ s2.circle_radius) := by
  constructor
  · intro s
    unfold FSMState.circle_radius
    rw [max_comm]
    push_cast
    ring_nf
  · intro s1 s2 h
    unfold FSMState.circle_radius
    have h1 : ((s1.name.length : ℚ) * 2 + 5) ≤ (s2.name.length : ℚ) * 2 + 5 := by
      have := (Nat.cast_le (α := ℚ)).mpr h
      linarith
    exact max_le_max h1 le_rfl

/-- Witness for C7: the radius of a node named Idle is max(10, 2*4+5), and a
one-letter name gives a radius at most that of a four-letter name. -/
theorem circle_radius_formula_witness :
    nodeIdle.circle_radius = max 10 (2 * nodeIdle.name.length + 5) ∧
    nodeA.name.length ≤ nodeIdle.name.length ∧
    nodeA.circle_radius ≤ nodeIdle.circle_radius := by
  refine ⟨circle_radius_formula.1 nodeIdle, by decide, ?_⟩
  exact circle_radius_formula.2 nodeA nodeIdle (by decide)

/-- C8: `normalized` is total with no division-by-zero fault: the zero vector
is returned unchanged, and for nonzero magnitude the division branch is taken
and the result has magnitude exactly 1 in the real-number model. -/
theorem normalized_total_safe :
    Vector2D.normalized ⟨0, 0⟩ = ⟨0, 0⟩ ∧
    ∀ v : Vector2D, v.magnitude ≠ 0 →
      v.normalized = v / v.magnitude ∧ v.normalized.magnitude = 1 :=
  ⟨normalized_zero, fun v h => ⟨normalized_of_ne v h, magnitude_normalized v h⟩⟩

/-- Witness for C8: the vector (3, 4) has nonzero magnitude and normalizes to
a unit vector. -/
theorem normalized_total_safe_witness :
    (Vector2D.mk 3 4).magnitude ≠ 0 ∧ (Vector2D.mk 3 4).normalized.magnitude = 1 := by
  have h5 : (Vector2D.mk 3 4).magnitude = 5 := by
    show Real.sqrt ((3 : ℝ) ^ 2 + (4 : ℝ) ^ 2) = 5
    rw [show (3 : ℝ) ^ 2 + (4 : ℝ) ^ 2 = 5 ^ 2 by norm_num]
    exact Real.sqrt_sq (by norm_num)
  have hne : (Vector2D.mk 3 4).magnitude ≠ 0 := by
    rw [h5]
    norm_num
  exact ⟨hne, (normalized_total_safe.2 ⟨3, 4⟩ hne).2⟩

/-- C9: `rotate` reduces the angle into [0, 2π) and then applies the rotation
matrix, the result equals the standard 2D rotation by the raw angle for every
real angle including negative ones, and rotating by an angle and then by its
negation round-trips to the original vector. -/
theorem rotate_reduction_correct :
    ∀ (v : Vector2D) (angle : ℝ),
      v.rotate angle = rotateStdSpec v angle ∧
      (v.rotate angle).rotate (-angle) = v := by
  intro v angle
  refine ⟨rotate_eq_rotateStdSpec v angle, ?_⟩
  rw [rotate_eq_rotateStdSpec, rotate_eq_rotateStdSpec, rotateStdSpec_roundtrip]
